import Mathlib

/-!
Verification development for the blog content utilities of this repository.

The JavaScript sources are embedded shallowly:
* the posts directory (`POSTS_PATH`) is a listing `List FileEntry` in directory
  order, each entry carrying its file name, its MDX body and its parsed
  front-matter;
* front-matter dates are the integer timestamps obtained by parsing the date
  strings (`new Date(...)`); the claims only concern files whose dates parse
  to valid dates;
* `fs.readFileSync` of a name is lookup in the listing, `none` standing for a
  thrown exception / `undefined`;
* JavaScript array indexing with possibly negative indices and the
  `find`/`indexOf` composition are embedded by explicit functions;
* `Array.prototype.sort` is, per the ECMAScript specification, a stable sort
  with respect to the comparator; a stable sort of a list by a total
  transitive comparator is extensionally insertion sort.
-/

/-- Parsed front-matter of a post file: its title and its date, the date as
the timestamp the front-matter date string parses to. -/
structure PostData where
  title : String
  date : Int
  deriving DecidableEq

/-- One entry of the posts directory: file name, MDX body after the
front-matter, and parsed front-matter. -/
structure FileEntry where
  name : String
  content : String
  data : PostData
  deriving DecidableEq

/-- A loaded post as built by `getPosts`: body, front-matter, file name. -/
structure Post where
  content : String
  data : PostData
  filePath : String
  deriving DecidableEq

/-- The regex test `/\.mdx?$/.test(path)`: the name ends in ".md" or ".mdx". -/
def endsWithMd (s : String) : Bool :=
  ".md".data.isSuffixOf s.data || ".mdx".data.isSuffixOf s.data

/-- `fs.readdirSync(POSTS_PATH).filter((path) => /\.mdx?$/.test(path))`. -/
def getPostFilePaths (fs : List FileEntry) : List String :=
  (fs.map (fun e => e.name)).filter endsWithMd

/-- The comparator of `sortPostsByDate`, `(a, b) => bDate - aDate`: `a` is
placed before `b` exactly when the comparator is nonpositive, that is when
`b`'s date is at most `a`'s date (descending order). -/
def dateDesc (a b : Post) : Prop := b.data.date ≤ a.data.date

instance : DecidableRel dateDesc := fun a b => Int.decLe b.data.date a.data.date

instance : IsTotal Post dateDesc := ⟨fun a b => le_total b.data.date a.data.date⟩

instance : IsTrans Post dateDesc := ⟨fun _ _ _ hab hbc => le_trans hbc hab⟩

/-- `posts.sort((a, b) => bDate - aDate)`: a stable sort of the array by the
descending-date comparator. -/
def sortPostsByDate (posts : List Post) : List Post :=
  List.insertionSort dateDesc posts

/-- `fs.readFileSync(path.join(POSTS_PATH, name))` together with the
front-matter parse: the directory entry of that name, if one exists. -/
def readFile (fs : List FileEntry) (name : String) : Option FileEntry :=
  fs.find? (fun e => e.name == name)

/-- The array `getPosts` builds before sorting: one post per matched file
name, carrying the file's body, front-matter and name. -/
def readPosts (fs : List FileEntry) : List Post :=
  (getPostFilePaths fs).filterMap (fun fp =>
    (readFile fs fp).map (fun e =>
      { content := e.content, data := e.data, filePath := fp }))

/-- `getPosts`: read every matched file of the posts directory and sort the
posts by date, descending. -/
def getPosts (fs : List FileEntry) : List Post :=
  sortPostsByDate (readPosts fs)

/-- `filePath.replace(/\.mdx?$/, '')`: strip a trailing ".mdx", otherwise a
trailing ".md", otherwise leave the name unchanged. -/
def stripMdExt (s : String) : String :=
  if ".mdx".data.isSuffixOf s.data then String.mk (s.data.take (s.data.length - 4))
  else if ".md".data.isSuffixOf s.data then String.mk (s.data.take (s.data.length - 3))
  else s

/-- `posts.find(pred)` followed by `posts.indexOf` of the found value: the
index of the first element satisfying `pred`, or -1 when there is none (each
post is a fresh object, so `indexOf` recovers exactly the index at which
`find` stopped). -/
def jsFindIndex (pred : Post → Bool) : List Post → Int
  | [] => -1
  | p :: ps =>
    if pred p then 0
    else
      let r := jsFindIndex pred ps
      if r < 0 then -1 else r + 1

/-- JavaScript array indexing `posts[i]` with a possibly negative index:
`undefined` (`none`) for a negative or out-of-range index. -/
def jsIndex (l : List Post) (i : Int) : Option Post :=
  if i < 0 then none else l.get? i.toNat

/-- The title/slug pair returned by the adjacent-post lookups. -/
structure PostRef where
  title : String
  slug : String
  deriving DecidableEq

/-- `getNextPostBySlug`: locate `${slug}.mdx` among the sorted posts and
return title and slug of the post one position earlier; `if (!post) return
null` followed by the object construction is mapping over the
possibly-undefined element (posts are objects, hence truthy). -/
def getNextPostBySlug (fs : List FileEntry) (slug : String) : Option PostRef :=
  let posts := getPosts fs
  let currentPostIndex := jsFindIndex (fun p => p.filePath == slug ++ ".mdx") posts
  (jsIndex posts (currentPostIndex - 1)).map (fun post =>
    { title := post.data.title, slug := stripMdExt post.filePath })

/-- `getPreviousPostBySlug`: locate `${slug}.mdx` among the sorted posts and
return title and slug of the post one position later, or null. -/
def getPreviousPostBySlug (fs : List FileEntry) (slug : String) : Option PostRef :=
  let posts := getPosts fs
  let currentPostIndex := jsFindIndex (fun p => p.filePath == slug ++ ".mdx") posts
  (jsIndex posts (currentPostIndex + 1)).map (fun post =>
    { title := post.data.title, slug := stripMdExt post.filePath })

/-- `getPostBySlug` reads the file `${slug}.mdx` (`readFileSync` throws,
embedded as `none`, when no such entry exists) and returns its body, its
front-matter and its path; the MDX serialization is a library call carrying
the body through. -/
def getPostBySlug (fs : List FileEntry) (slug : String) : Option Post :=
  (readFile fs (slug ++ ".mdx")).map (fun e =>
    { content := e.content, data := e.data, filePath := e.name })

/-- A found index is within bounds: `jsFindIndex` returns a nonnegative index
only for a position of the list. -/
lemma jsFindIndex_lt_length {pred : Post → Bool} : ∀ {l : List Post} {i : ℕ},
    jsFindIndex pred l = (i : Int) → i < l.length := by
  intro l
  induction l with
  | nil =>
    intro i h
    simp only [jsFindIndex] at h
    omega
  | cons p ps ih =>
    intro i h
    simp only [jsFindIndex] at h
    by_cases hp : pred p
    · rw [if_pos hp] at h
      have hi : i = 0 := by omega
      subst hi
      simp
    · rw [if_neg hp] at h
      by_cases hneg : jsFindIndex pred ps < 0
      · rw [if_pos hneg] at h
        omega
      · rw [if_neg hneg] at h
        have h2 : jsFindIndex pred ps = ((i - 1 : ℕ) : Int) := by omega
        have h3 := ih h2
        simp only [List.length_cons]
        omega

/-- A successful find: when some element of the list satisfies the predicate,
`jsFindIndex` returns a nonnegative index. -/
lemma jsFindIndex_of_mem {pred : Post → Bool} : ∀ {l : List Post},
    (∃ p ∈ l, pred p = true) → ∃ i : ℕ, jsFindIndex pred l = (i : Int) := by
  intro l
  induction l with
  | nil =>
    rintro ⟨p, hp, _⟩
    exact absurd hp (List.not_mem_nil p)
  | cons p ps ih =>
    rintro ⟨q, hq, hq2⟩
    by_cases hp : pred p
    · exact ⟨0, by simp [jsFindIndex, hp]⟩
    · have hqs : q ∈ ps := by
        rcases List.mem_cons.mp hq with h | h
        · exact absurd (h ▸ hq2) (by simp [hp])
        · exact h
      obtain ⟨i, hi⟩ := ih ⟨q, hqs, hq2⟩
      refine ⟨i + 1, ?_⟩
      simp only [jsFindIndex, if_neg hp, hi]
      have : ¬ ((i : Int) < 0) := by omega
      rw [if_neg this]
      push_cast
      ring

/-- C1: getPosts returns the posts of the directory sorted by their
front-matter date in descending order: the result is a permutation of the
posts read from disk, and for every pair of adjacent posts the date of the
earlier element is at least the date of the later element. -/
theorem getPosts_sorted_date_desc (fs : List FileEntry) :
    (getPosts fs).Perm (readPosts fs) ∧
      List.Chain' (fun a b => b.data.date ≤ a.data.date) (getPosts fs) := by
  refine ⟨List.perm_insertionSort dateDesc (readPosts fs), ?_⟩
  exact List.Pairwise.chain' (List.sorted_insertionSort dateDesc (readPosts fs))

/-- C2: when `${slug}.mdx` is among the posts returned by getPosts, at sorted
position i, getNextPostBySlug returns the title and slug of the post at
position i - 1 (the adjacent newer post: its date is at least the current
post's date), and returns null exactly when the post is the first. -/
theorem getNextPostBySlug_spec (fs : List FileEntry) (slug : String) (i : ℕ)
    (h : jsFindIndex (fun p => p.filePath == slug ++ ".mdx") (getPosts fs) = (i : Int)) :
    (i = 0 → getNextPostBySlug fs slug = none) ∧
    (∀ j, i = j + 1 → ∃ p, (getPosts fs).get? j = some p ∧
        getNextPostBySlug fs slug =
          some { title := p.data.title, slug := stripMdExt p.filePath }) ∧
    (getNextPostBySlug fs slug = none ↔ i = 0) ∧
    (∀ j, i = j + 1 → ∀ p ∈ (getPosts fs).get? j, ∀ q ∈ (getPosts fs).get? i,
        q.data.date ≤ p.data.date) := by
  have hlen : i < (getPosts fs).length := jsFindIndex_lt_length h
  cases i with
  | zero =>
    have hnone : getNextPostBySlug fs slug = none := by
      simp only [getNextPostBySlug]
      rw [h]
      norm_num [jsIndex]
    exact ⟨fun _ => hnone, fun j hj => absurd hj (by omega), by simp [hnone],
      fun j hj => absurd hj (by omega)⟩
  | succ j =>
    obtain ⟨p, hp⟩ : ∃ p, (getPosts fs).get? j = some p :=
      ⟨_, List.get?_eq_get (by omega)⟩
    have hsome : getNextPostBySlug fs slug =
        some { title := p.data.title, slug := stripMdExt p.filePath } := by
      simp only [getNextPostBySlug]
      rw [h]
      have h1 : ((j + 1 : ℕ) : Int) - 1 = ((j : ℕ) : Int) := by push_cast; ring
      rw [h1]
      have h2 : ¬ (((j : ℕ) : Int) < 0) := by omega
      have h3 : ((j : ℕ) : Int).toNat = j := by omega
      simp only [jsIndex, if_neg h2, h3, hp, Option.map_some']
    refine ⟨fun hh => absurd hh (by omega), ?_, by simp [hsome], ?_⟩
    · intro j' hj'
      have hj'j : j' = j := by omega
      subst hj'j
      exact ⟨p, hp, hsome⟩
    · intro j' hj' p' hp' q hq
      have hj'j : j' = j := by omega
      rw [hj'j] at hp'
      rw [Option.mem_def] at hp' hq
      have hs : List.Pairwise dateDesc (getPosts fs) :=
        List.sorted_insertionSort dateDesc (readPosts fs)
      obtain ⟨hlt1, hget1⟩ := List.get?_eq_some.mp hp'
      obtain ⟨hlt2, hget2⟩ := List.get?_eq_some.mp hq
      have hpair := List.pairwise_iff_get.mp hs ⟨j, hlt1⟩ ⟨j + 1, hlt2⟩
        (by simp [Fin.mk_lt_mk])
      rw [hget1, hget2] at hpair
      exact hpair

/-- C3: when `${slug}.mdx` is among the posts returned by getPosts, at sorted
position i, getPreviousPostBySlug returns the title and slug of the post at
position i + 1 (the adjacent older post: its date is at most the current
post's date), and returns null exactly when the post is the last. -/
theorem getPreviousPostBySlug_spec (fs : List FileEntry) (slug : String) (i : ℕ)
    (h : jsFindIndex (fun p => p.filePath == slug ++ ".mdx") (getPosts fs) = (i : Int)) :
    (∀ p, (getPosts fs).get? (i + 1) = some p →
        getPreviousPostBySlug fs slug =
          some { title := p.data.title, slug := stripMdExt p.filePath }) ∧
    (i + 1 < (getPosts fs).length → ∃ p, (getPosts fs).get? (i + 1) = some p) ∧
    (getPreviousPostBySlug fs slug = none ↔ i + 1 = (getPosts fs).length) ∧
    (∀ p ∈ (getPosts fs).get? (i + 1), ∀ q ∈ (getPosts fs).get? i,
        p.data.date ≤ q.data.date) := by
  have hlen : i < (getPosts fs).length := jsFindIndex_lt_length h
  have hred : getPreviousPostBySlug fs slug =
      ((getPosts fs).get? (i + 1)).map (fun post =>
        { title := post.data.title, slug := stripMdExt post.filePath }) := by
    simp only [getPreviousPostBySlug]
    rw [h]
    have h2 : ¬ (((i : ℕ) : Int) + 1 < 0) := by omega
    have h3 : (((i : ℕ) : Int) + 1).toNat = i + 1 := by omega
    simp [jsIndex, h2, h3]
  refine ⟨?_, ?_, ?_, ?_⟩
  · intro p hp
    rw [hred, hp]
    rfl
  · intro hlt
    exact ⟨_, List.get?_eq_get hlt⟩
  · rw [hred, Option.map_eq_none', List.get?_eq_none]
    omega
  · intro p hp q hq
    rw [Option.mem_def] at hp hq
    have hs : List.Pairwise dateDesc (getPosts fs) :=
      List.sorted_insertionSort dateDesc (readPosts fs)
    obtain ⟨hlt1, hget1⟩ := List.get?_eq_some.mp hp
    obtain ⟨hlt2, hget2⟩ := List.get?_eq_some.mp hq
    have hpair := List.pairwise_iff_get.mp hs ⟨i, hlt2⟩ ⟨i + 1, hlt1⟩
      (by simp [Fin.mk_lt_mk])
    rw [hget1, hget2] at hpair
    exact hpair

/-- C8: when no post matches `${slug}.mdx` the find-index is -1;
getNextPostBySlug then returns null, while getPreviousPostBySlug returns the
first (newest) post of the sorted list whenever the list is nonempty. -/
theorem lookupMiss_next_null_prev_first (fs : List FileEntry) (slug : String)
    (h : jsFindIndex (fun p => p.filePath == slug ++ ".mdx") (getPosts fs) = -1) :
    getNextPostBySlug fs slug = none ∧
      (getPosts fs ≠ [] → ∃ p, (getPosts fs).head? = some p ∧
        getPreviousPostBySlug fs slug =
          some { title := p.data.title, slug := stripMdExt p.filePath }) := by
  constructor
  · simp only [getNextPostBySlug]
    rw [h]
    norm_num [jsIndex]
  · intro hne
    cases hgp : getPosts fs with
    | nil => exact absurd hgp hne
    | cons p ps =>
      refine ⟨p, rfl, ?_⟩
      simp only [getPreviousPostBySlug]
      rw [h, hgp]
      norm_num [jsIndex]

/-- Stripping the extension of a name ending in ".mdx" and appending ".mdx"
recovers the name. -/
lemma stripMdExt_append_mdx {s : String}
    (h : ".mdx".data.isSuffixOf s.data = true) :
    stripMdExt s ++ ".mdx" = s := by
  obtain ⟨t, ht⟩ := List.isSuffixOf_iff_suffix.mp h
  apply String.ext
  rw [String.data_append]
  show (stripMdExt s).data ++ ".mdx".data = s.data
  rw [stripMdExt, if_pos h]
  show s.data.take (s.data.length - 4) ++ ".mdx".data = s.data
  rw [← ht]
  have hlen : (t ++ ".mdx".data).length - 4 = t.length := by
    simp [List.length_append]
  rw [hlen, List.take_left' rfl]

/-- C4, counterexample: a directory entry "a.md" is kept by getPostFilePaths,
its slug is "a", but the lookups build the file name "a.mdx": getPostBySlug
finds no file and the filename match of the adjacent-post lookups finds no
post. -/
theorem slug_lookup_roundtrip_cex :
    "a.md" ∈ getPostFilePaths [⟨"a.md", "body", ⟨"T", 0⟩⟩] ∧
    stripMdExt "a.md" = "a" ∧
    getPostBySlug [⟨"a.md", "body", ⟨"T", 0⟩⟩] "a" = none ∧
    jsFindIndex (fun p => p.filePath == "a" ++ ".mdx")
      (getPosts [⟨"a.md", "body", ⟨"T", 0⟩⟩]) = -1 := by
  refine ⟨?_, ?_, ?_, ?_⟩ <;> decide

/-- C4, amended: for every file name returned by getPostFilePaths that ends
in ".mdx", the slug obtained by stripping the extension locates that same
file: getPostBySlug finds it and the filename match of the adjacent-post
lookups finds the corresponding post. -/
theorem slug_lookup_roundtrip_mdx (fs : List FileEntry) (name : String)
    (hmem : name ∈ getPostFilePaths fs)
    (hmdx : ".mdx".data.isSuffixOf name.data = true) :
    (∃ e, getPostBySlug fs (stripMdExt name) = some e ∧ e.filePath = name) ∧
    (∃ i : ℕ, jsFindIndex (fun p => p.filePath == stripMdExt name ++ ".mdx")
        (getPosts fs) = (i : Int)) := by
  have hname : stripMdExt name ++ ".mdx" = name := stripMdExt_append_mdx hmdx
  have hmem' : name ∈ fs.map (fun e => e.name) := by
    have hmem2 := hmem
    simp only [getPostFilePaths] at hmem2
    exact List.mem_of_mem_filter hmem2
  obtain ⟨e, hefs, hename⟩ := List.mem_map.mp hmem'
  have hfind : ∃ e', readFile fs name = some e' ∧ e'.name = name := by
    have hsome : (fs.find? (fun x => x.name == name)).isSome := by
      rw [List.find?_isSome]
      exact ⟨e, hefs, by simp [hename]⟩
    obtain ⟨e', he'⟩ := Option.isSome_iff_exists.mp hsome
    refine ⟨e', he', ?_⟩
    have hps := List.find?_some he'
    simpa using hps
  obtain ⟨e', hre, hne⟩ := hfind
  constructor
  · refine ⟨⟨e'.content, e'.data, e'.name⟩, ?_, ?_⟩
    · simp only [getPostBySlug, hname, hre, Option.map_some']
    · exact hne
  · apply jsFindIndex_of_mem
    refine ⟨⟨e'.content, e'.data, name⟩, ?_, ?_⟩
    · have hperm := List.perm_insertionSort dateDesc (readPosts fs)
      have hmemr : (⟨e'.content, e'.data, name⟩ : Post) ∈ readPosts fs := by
        simp only [readPosts]
        apply List.mem_filterMap.mpr
        refine ⟨name, hmem, ?_⟩
        rw [hre]
        rfl
      exact (hperm.mem_iff).mpr hmemr
    · simp [hname]

/-- The environment variables read by getGlobalData: a set variable carries
its string value, an unset one is `none` (undefined). -/
structure Env where
  BLOG_NAME : Option String
  BLOG_TITLE : Option String
  BLOG_FOOTER_TEXT : Option String

/-- The object returned by getGlobalData. -/
structure GlobalData where
  name : String
  blogTitle : String
  footerText : String
  deriving DecidableEq

/-- `x ? decode(x) : d` over an environment variable: an unset variable is
undefined, hence falsy, and the empty string is falsy. -/
def condDecode (decode : String → String) (x : Option String) (d : String) : String :=
  match x with
  | none => d
  | some s => if s = "" then d else decode s

/-- `getGlobalData`, parametrized by the `decodeURI` library function. -/
def getGlobalData (decode : String → String) (env : Env) : GlobalData :=
  { name := condDecode decode env.BLOG_NAME "Jay Doe"
    blogTitle := condDecode decode env.BLOG_TITLE "Next.js Blog Theme"
    footerText := condDecode decode env.BLOG_FOOTER_TEXT "All rights reserved." }

/-- C5: getGlobalData returns the URI-decoded value of each of BLOG_NAME,
BLOG_TITLE and BLOG_FOOTER_TEXT when the variable is set non-empty, and the
defaults 'Jay Doe', 'Next.js Blog Theme', 'All rights reserved.' when the
variable is unset. -/
theorem getGlobalData_spec (decode : String → String) (env : Env) :
    ((∀ s, env.BLOG_NAME = some s → s ≠ "" →
        (getGlobalData decode env).name = decode s) ∧
      (env.BLOG_NAME = none → (getGlobalData decode env).name = "Jay Doe")) ∧
    ((∀ s, env.BLOG_TITLE = some s → s ≠ "" →
        (getGlobalData decode env).blogTitle = decode s) ∧
      (env.BLOG_TITLE = none →
        (getGlobalData decode env).blogTitle = "Next.js Blog Theme")) ∧
    ((∀ s, env.BLOG_FOOTER_TEXT = some s → s ≠ "" →
        (getGlobalData decode env).footerText = decode s) ∧
      (env.BLOG_FOOTER_TEXT = none →
        (getGlobalData decode env).footerText = "All rights reserved.")) := by
  refine ⟨⟨?_, ?_⟩, ⟨?_, ?_⟩, ⟨?_, ?_⟩⟩ <;>
    first
    | (intro s hs hne; simp [getGlobalData, condDecode, hs, hne])
    | (intro hs; simp [getGlobalData, condDecode, hs])

/-- The specification-side extension condition: the name ends in ".md" or in
".mdx". -/
def mdExtension (s : String) : Prop :=
  ".md".data <:+ s.data ∨ ".mdx".data <:+ s.data

instance (s : String) : Decidable (mdExtension s) := by
  unfold mdExtension
  infer_instance

/-- C6: getPostFilePaths returns exactly the directory entries whose names
end in ".md" or ".mdx", in directory-listing order (a sublist of the
listing). -/
theorem getPostFilePaths_exact (fs : List FileEntry) :
    getPostFilePaths fs =
      (fs.map (fun e => e.name)).filter (fun n => decide (mdExtension n)) ∧
    (getPostFilePaths fs).Sublist (fs.map (fun e => e.name)) := by
  constructor
  · simp only [getPostFilePaths]
    apply List.filter_congr
    intro n _
    rw [Bool.eq_iff_iff]
    simp [endsWithMd, mdExtension, List.isSuffixOf_iff_suffix]
  · exact List.filter_sublist _

/-- A heap of JavaScript arrays of posts: a map from array references to
contents. -/
def Heap : Type := ℕ → List Post

/-- The stateful embedding of `sortPostsByDate`: per the ECMAScript
specification, `posts.sort(...)` sorts the receiver array in place and
evaluates to the receiver, so the function returns its argument reference
and the heap with that array's contents sorted. -/
def sortPostsByDateRef (h : Heap) (r : ℕ) : ℕ × Heap :=
  (r, fun r' => if r' = r then sortPostsByDate (h r') else h r')

/-- C9: sortPostsByDate sorts its argument array in place and returns the
very array it was given: the returned reference is the argument reference,
the argument's contents afterwards are the sorted permutation of its previous
contents (so the input contents are not kept), and no other array changes. -/
theorem sortPostsByDate_in_place (h : Heap) (r : ℕ) :
    (sortPostsByDateRef h r).1 = r ∧
    (sortPostsByDateRef h r).2 r = sortPostsByDate (h r) ∧
    ((sortPostsByDateRef h r).2 r).Perm (h r) ∧
    List.Chain' (fun a b => b.data.date ≤ a.data.date)
      ((sortPostsByDateRef h r).2 r) ∧
    (∀ r', r' ≠ r → (sortPostsByDateRef h r).2 r' = h r') := by
  refine ⟨rfl, by simp [sortPostsByDateRef], ?_, ?_, ?_⟩
  · simp only [sortPostsByDateRef, if_pos rfl]
    exact List.perm_insertionSort dateDesc (h r)
  · simp only [sortPostsByDateRef, if_pos rfl]
    exact List.Pairwise.chain' (List.sorted_insertionSort dateDesc (h r))
  · intro r' hr'
    simp [sortPostsByDateRef, hr']

/-- `document.documentElement.classList.add(c)`: a DOMTokenList appends the
token unless it is already present. -/
def classListAdd (classes : List String) (c : String) : List String :=
  if c ∈ classes then classes else classes ++ [c]

/-- `classList.remove(c)`: drop the token. -/
def classListRemove (classes : List String) (c : String) : List String :=
  classes.filter (fun x => x != c)

/-- `setAppTheme`, run by Layout on mount: read localStorage 'theme'
(`getItem` returns null, `none`, when the key is absent) and update the root
element's class list. -/
def setAppTheme (localStorage : String → Option String) (classes : List String) :
    List String :=
  if localStorage "theme" = some "dark" then classListAdd classes "dark"
  else if localStorage "theme" = some "light" then classListRemove classes "dark"
  else classes

/-- C10: setAppTheme adds the 'dark' class when the stored theme is 'dark',
removes it when the stored theme is 'light', and leaves the class list
unchanged for every other stored value, including an absent one. -/
theorem setAppTheme_spec (ls : String → Option String) (classes : List String) :
    (ls "theme" = some "dark" →
      setAppTheme ls classes = classListAdd classes "dark" ∧
        "dark" ∈ setAppTheme ls classes) ∧
    (ls "theme" = some "light" →
      setAppTheme ls classes = classListRemove classes "dark" ∧
        "dark" ∉ setAppTheme ls classes) ∧
    (ls "theme" ≠ some "dark" → ls "theme" ≠ some "light" →
      setAppTheme ls classes = classes) := by
  refine ⟨?_, ?_, ?_⟩
  · intro hth
    have heq : setAppTheme ls classes = classListAdd classes "dark" := by
      simp [setAppTheme, hth]
    refine ⟨heq, ?_⟩
    rw [heq]
    by_cases hc : "dark" ∈ classes <;> simp [classListAdd, hc]
  · intro hth
    have heq : setAppTheme ls classes = classListRemove classes "dark" := by
      simp [setAppTheme, hth]
    refine ⟨heq, ?_⟩
    rw [heq]
    simp [classListRemove]
  · intro h1 h2
    simp [setAppTheme, h1, h2]

/-- `process.env.X || d`: the variable's value when set and non-empty (truthy),
the default otherwise. -/
def orDefault (x : Option String) (d : String) : String :=
  match x with
  | none => d
  | some s => if s = "" then d else s

/-- `const THEME = process.env.BLOG_THEME || 'default'`. -/
def THEME (blogTheme : Option String) : String := orDefault blogTheme "default"

/-- `const FONT_PRIMARY = process.env.BLOG_FONT_HEADINGS || 'sans-serif'`. -/
def FONT_PRIMARY (blogFontHeadings : Option String) : String :=
  orDefault blogFontHeadings "sans-serif"

/-- `const FONT_SECONDARY = process.env.BLOG_FONT_BODY || 'sans-serif'`. -/
def FONT_SECONDARY (blogFontBody : Option String) : String :=
  orDefault blogFontBody "sans-serif"

/-- Assignment to a JavaScript object property, `obj[k] = v`: overwrite an
existing key in place, otherwise append the key in insertion order. A value
that is `undefined` (as for a font lookup that misses) is stored as `none`. -/
def jsSet (m : List (String × Option String)) (k : String) (v : Option String) :
    List (String × Option String) :=
  if m.any (fun q => q.1 == k) then
    m.map (fun q => if q.1 == k then (k, v) else q)
  else m ++ [(k, v)]

/-- The `cssVars` object built by the themesConfig plugin: one
`--color-${key}` variable per key of `COLOR_THEMES[THEME].colors` (in
`Object.keys` order), then `--font-primary` and `--font-secondary` from
`FONT_THEMES` at the selected font names. `COLOR_THEMES` is modelled as the
map from theme name to that theme's colors object (the `.colors` field
access folded into the lookup); when the selected theme is absent the plugin
throws reading `.colors` of undefined, embedded as `none`. -/
def themesConfigVars (colorThemes : List (String × List (String × String)))
    (fontThemes : List (String × String))
    (blogTheme blogFontHeadings blogFontBody : Option String) :
    Option (List (String × Option String)) :=
  match colorThemes.lookup (THEME blogTheme) with
  | none => none
  | some colors =>
    let cssVars := colors.foldl
      (fun m kv => jsSet m ("--color-" ++ kv.1) (some kv.2)) []
    let cssVars := jsSet cssVars "--font-primary"
      (fontThemes.lookup (FONT_PRIMARY blogFontHeadings))
    let cssVars := jsSet cssVars "--font-secondary"
      (fontThemes.lookup (FONT_SECONDARY blogFontBody))
    some cssVars

/-- The themesConfig plugin body: `addComponents({ '.theme-compiled':
cssVars })`, one component under the single '.theme-compiled' selector. -/
def themesConfig (colorThemes : List (String × List (String × String)))
    (fontThemes : List (String × String))
    (blogTheme blogFontHeadings blogFontBody : Option String) :
    Option (String × List (String × Option String)) :=
  (themesConfigVars colorThemes fontThemes blogTheme blogFontHeadings
      blogFontBody).map
    (fun vars => (".theme-compiled", vars))

/-- Appending `"--color-"` is injective. -/
lemma color_key_inj {k1 k2 : String}
    (h : "--color-" ++ k1 = "--color-" ++ k2) : k1 = k2 := by
  have hd := congrArg String.data h
  rw [String.data_append, String.data_append] at hd
  exact String.ext (List.append_cancel_left hd)

/-- A color variable name is never the primary font variable name. -/
lemma color_key_ne_font_primary (k : String) :
    "--color-" ++ k ≠ "--font-primary" := by
  intro h
  have hd := congrArg String.data h
  rw [String.data_append] at hd
  have h8 : List.take 8 ("--color-".data ++ k.data) = "--color-".data :=
    List.take_left' rfl
  rw [hd] at h8
  exact absurd h8 (by decide)

/-- A color variable name is never the secondary font variable name. -/
lemma color_key_ne_font_secondary (k : String) :
    "--color-" ++ k ≠ "--font-secondary" := by
  intro h
  have hd := congrArg String.data h
  rw [String.data_append] at hd
  have h8 : List.take 8 ("--color-".data ++ k.data) = "--color-".data :=
    List.take_left' rfl
  rw [hd] at h8
  exact absurd h8 (by decide)

/-- Folding fresh pairwise-distinct assignments over an object appends them
in insertion order. -/
lemma foldl_jsSet_fresh (g : String → String) :
    ∀ (l : List (String × String)) (acc : List (String × Option String)),
      (∀ p ∈ l, ∀ q ∈ acc, q.1 ≠ g p.1) →
      (l.map (fun p => g p.1)).Nodup →
      l.foldl (fun m kv => jsSet m (g kv.1) (some kv.2)) acc =
        acc ++ l.map (fun kv => (g kv.1, some kv.2)) := by
  intro l
  induction l with
  | nil =>
    intro acc _ _
    simp
  | cons p ps ih =>
    intro acc hfresh hnodup
    simp only [List.foldl_cons]
    have hany : ¬ (acc.any (fun q => q.1 == g p.1) = true) := by
      simp only [List.any_eq_true, not_exists]
      rintro q ⟨hq, hq2⟩
      exact absurd (by simpa using hq2) (hfresh p (List.mem_cons_self p ps) q hq)
    have hset : jsSet acc (g p.1) (some p.2) = acc ++ [(g p.1, some p.2)] := by
      rw [jsSet, if_neg hany]
    rw [hset]
    have hfresh2 : ∀ p' ∈ ps, ∀ q ∈ acc ++ [(g p.1, some p.2)], q.1 ≠ g p'.1 := by
      intro p' hp' q hq
      rcases List.mem_append.mp hq with hqa | hqs
      · exact hfresh p' (List.mem_cons_of_mem p hp') q hqa
      · have hq1 : q = (g p.1, some p.2) := by simpa using hqs
        subst hq1
        intro hcontra
        have hmem : g p.1 ∈ ps.map (fun x => g x.1) :=
          List.mem_map.mpr ⟨p', hp', hcontra.symm⟩
        rw [List.map_cons, List.nodup_cons] at hnodup
        exact hnodup.1 hmem
    have hnodup2 : (ps.map (fun x => g x.1)).Nodup := by
      rw [List.map_cons, List.nodup_cons] at hnodup
      exact hnodup.2
    rw [ih (acc ++ [(g p.1, some p.2)]) hfresh2 hnodup2]
    simp

/-- C7: the themesConfig plugin adds a single '.theme-compiled' component
defining exactly one `--color-${key}` variable per color key of the selected
theme (the BLOG_THEME environment variable, or 'default'), followed by
`--font-primary` and `--font-secondary` taken from FONT_THEMES at the
BLOG_FONT_HEADINGS and BLOG_FONT_BODY environment variables (each defaulting
to 'sans-serif'), and no other variable. -/
theorem themesConfig_compiled_vars
    (colorThemes : List (String × List (String × String)))
    (fontThemes : List (String × String))
    (blogTheme blogFontHeadings blogFontBody : Option String)
    (colors : List (String × String))
    (hlook : colorThemes.lookup (THEME blogTheme) = some colors)
    (hnodup : (colors.map Prod.fst).Nodup) :
    themesConfig colorThemes fontThemes blogTheme blogFontHeadings blogFontBody =
      some (".theme-compiled",
        colors.map (fun kv => ("--color-" ++ kv.1, some kv.2)) ++
          [("--font-primary", fontThemes.lookup (FONT_PRIMARY blogFontHeadings)),
            ("--font-secondary", fontThemes.lookup (FONT_SECONDARY blogFontBody))]) := by
  have hnodup' : (colors.map (fun x => "--color-" ++ x.1)).Nodup := by
    have hcomp : (fun x : String × String => "--color-" ++ x.1) =
        (fun k => "--color-" ++ k) ∘ Prod.fst := rfl
    rw [hcomp, ← List.map_map]
    exact hnodup.map (fun a b hab => color_key_inj hab)
  have hfold : colors.foldl
      (fun m kv => jsSet m ("--color-" ++ kv.1) (some kv.2)) [] =
      colors.map (fun kv => ("--color-" ++ kv.1, some kv.2)) := by
    have hres := foldl_jsSet_fresh (fun k => "--color-" ++ k) colors []
      (by intro p _ q hq; exact absurd hq (List.not_mem_nil q)) hnodup'
    simpa using hres
  have hany1 : ¬ ((colors.map (fun kv => ("--color-" ++ kv.1, some kv.2))).any
      (fun q => q.1 == "--font-primary") = true) := by
    simp only [List.any_eq_true, not_exists]
    rintro q ⟨hq, hq2⟩
    obtain ⟨kv, _, rfl⟩ := List.mem_map.mp hq
    exact absurd (by simpa using hq2) (color_key_ne_font_primary kv.1)
  have hset1 : jsSet (colors.map (fun kv => ("--color-" ++ kv.1, some kv.2)))
      "--font-primary" (fontThemes.lookup (FONT_PRIMARY blogFontHeadings)) =
      colors.map (fun kv => ("--color-" ++ kv.1, some kv.2)) ++
        [("--font-primary", fontThemes.lookup (FONT_PRIMARY blogFontHeadings))] := by
    rw [jsSet, if_neg hany1]
  have hany2 : ¬ ((colors.map (fun kv => ("--color-" ++ kv.1, some kv.2)) ++
      [("--font-primary", fontThemes.lookup (FONT_PRIMARY blogFontHeadings))]).any
      (fun q => q.1 == "--font-secondary") = true) := by
    simp only [List.any_eq_true, not_exists, List.mem_append]
    rintro q ⟨hq, hq2⟩
    rcases hq with hqm | hqf
    · obtain ⟨kv, _, rfl⟩ := List.mem_map.mp hqm
      exact absurd (by simpa using hq2) (color_key_ne_font_secondary kv.1)
    · have hq1 : q = ("--font-primary",
          fontThemes.lookup (FONT_PRIMARY blogFontHeadings)) := by simpa using hqf
      subst hq1
      simp at hq2
  have hset2 : jsSet (colors.map (fun kv => ("--color-" ++ kv.1, some kv.2)) ++
      [("--font-primary", fontThemes.lookup (FONT_PRIMARY blogFontHeadings))])
      "--font-secondary" (fontThemes.lookup (FONT_SECONDARY blogFontBody)) =
      colors.map (fun kv => ("--color-" ++ kv.1, some kv.2)) ++
        [("--font-primary", fontThemes.lookup (FONT_PRIMARY blogFontHeadings)),
          ("--font-secondary", fontThemes.lookup (FONT_SECONDARY blogFontBody))] := by
    rw [jsSet, if_neg hany2]
    simp
  simp only [themesConfig, themesConfigVars, hlook, hfold, hset1, hset2,
    Option.map_some']

/-- A concrete posts directory: two MDX files, listed oldest-first, so that
sorting visibly reorders them. -/
def fsW : List FileEntry :=
  [⟨"old.mdx", "o", ⟨"Old", 10⟩⟩, ⟨"new.mdx", "n", ⟨"New", 20⟩⟩]

/-- A concrete COLOR_THEMES object with a single 'default' theme. -/
def colorThemesW : List (String × List (String × String)) :=
  [("default", [("primary", "#111"), ("gradient-1", "#222")])]

/-- A concrete FONT_THEMES object. -/
def fontThemesW : List (String × String) := [("sans-serif", "ui-sans-serif")]

/-- C1, instantiated on the concrete directory. -/
theorem getPosts_sorted_date_desc_witness :
    (getPosts fsW).Perm (readPosts fsW) ∧
      List.Chain' (fun a b => b.data.date ≤ a.data.date) (getPosts fsW) :=
  getPosts_sorted_date_desc fsW

/-- C2, witness: the slug "old" sits at sorted position 1 of the concrete
directory, and the lookup is not null there. -/
theorem getNextPostBySlug_spec_witness :
    jsFindIndex (fun p => p.filePath == "old" ++ ".mdx") (getPosts fsW) =
        ((1 : ℕ) : Int) ∧
      (getNextPostBySlug fsW "old" = none ↔ (1 : ℕ) = 0) :=
  ⟨by decide, (getNextPostBySlug_spec fsW "old" 1 (by decide)).2.2.1⟩

/-- C3, witness: the slug "new" sits at sorted position 0 of the concrete
directory, which is not the last position, and the lookup is not null. -/
theorem getPreviousPostBySlug_spec_witness :
    jsFindIndex (fun p => p.filePath == "new" ++ ".mdx") (getPosts fsW) =
        ((0 : ℕ) : Int) ∧
      (getPreviousPostBySlug fsW "new" = none ↔
        (0 : ℕ) + 1 = (getPosts fsW).length) :=
  ⟨by decide, (getPreviousPostBySlug_spec fsW "new" 0 (by decide)).2.2.1⟩

/-- C4, witness of the amended claim: the ".mdx" entry "new.mdx" round-trips
through its slug. -/
theorem slug_lookup_roundtrip_mdx_witness :
    "new.mdx" ∈ getPostFilePaths fsW ∧
      ".mdx".data.isSuffixOf "new.mdx".data = true ∧
      ((∃ e, getPostBySlug fsW (stripMdExt "new.mdx") = some e ∧
          e.filePath = "new.mdx") ∧
        (∃ i : ℕ, jsFindIndex
            (fun p => p.filePath == stripMdExt "new.mdx" ++ ".mdx")
            (getPosts fsW) = (i : Int))) :=
  ⟨by decide, by decide,
    slug_lookup_roundtrip_mdx fsW "new.mdx" (by decide) (by decide)⟩

/-- C5, instantiated: with every variable unset, every field is its default. -/
theorem getGlobalData_spec_witness :
    ((Env.mk none none none).BLOG_NAME = none →
      (getGlobalData (fun s => s) (Env.mk none none none)).name = "Jay Doe") :=
  (getGlobalData_spec (fun s => s) (Env.mk none none none)).1.2

/-- C6, instantiated on the concrete directory. -/
theorem getPostFilePaths_exact_witness :
    getPostFilePaths fsW =
        (fsW.map (fun e => e.name)).filter (fun n => decide (mdExtension n)) ∧
      (getPostFilePaths fsW).Sublist (fsW.map (fun e => e.name)) :=
  getPostFilePaths_exact fsW

/-- C7, witness: the concrete themes compile to exactly the two color
variables followed by the two font variables. -/
theorem themesConfig_compiled_vars_witness :
    colorThemesW.lookup (THEME none) =
        some [("primary", "#111"), ("gradient-1", "#222")] ∧
      (([("primary", "#111"), ("gradient-1", "#222")] :
          List (String × String)).map Prod.fst).Nodup ∧
      themesConfig colorThemesW fontThemesW none none none =
        some (".theme-compiled",
          ([("primary", "#111"), ("gradient-1", "#222")] :
              List (String × String)).map
              (fun kv => ("--color-" ++ kv.1, some kv.2)) ++
            [("--font-primary", fontThemesW.lookup (FONT_PRIMARY none)),
              ("--font-secondary", fontThemesW.lookup (FONT_SECONDARY none))]) :=
  ⟨by decide, by decide,
    themesConfig_compiled_vars colorThemesW fontThemesW none none none
      [("primary", "#111"), ("gradient-1", "#222")] (by decide) (by decide)⟩

/-- C8, witness: the slug "missing" matches no post of the concrete
directory; the next-post lookup is null while the previous-post lookup
returns the newest post. -/
theorem lookupMiss_next_null_prev_first_witness :
    jsFindIndex (fun p => p.filePath == "missing" ++ ".mdx") (getPosts fsW) =
        -1 ∧
      (getNextPostBySlug fsW "missing" = none ∧
        (getPosts fsW ≠ [] → ∃ p, (getPosts fsW).head? = some p ∧
          getPreviousPostBySlug fsW "missing" =
            some { title := p.data.title, slug := stripMdExt p.filePath })) :=
  ⟨by decide, lookupMiss_next_null_prev_first fsW "missing" (by decide)⟩

/-- C9, instantiated: sorting through a reference returns that reference. -/
theorem sortPostsByDate_in_place_witness :
    (sortPostsByDateRef (fun _ => []) 0).1 = 0 :=
  (sortPostsByDate_in_place (fun _ => []) 0).1

/-- C10, instantiated: with 'dark' stored, the class is added. -/
theorem setAppTheme_spec_witness :
    ((fun _ : String => some "dark") "theme" = some "dark" →
      setAppTheme (fun _ => some "dark") [] = classListAdd [] "dark" ∧
        "dark" ∈ setAppTheme (fun _ => some "dark") []) :=
  (setAppTheme_spec (fun _ => some "dark") []).1
